import Mathlib

/-!
Verification of the coupled-rotator simulation engine (`rotators.py`).

The development shallowly embeds the core of the program:

* `dynamics` — the coupled-rotator ODE right-hand side (lines 62-78);
* `Config` — the configuration constants and their validation (lines 32-59);
* `max_history` — the history-capacity computation of `__init__` (line 88);
* `SimState` — the mutable fields of a `RotatorSimulation` object;
* `add_to_history` — `RotatorSimulation._add_to_history` (lines 120-150);
* `reset` — `RotatorSimulation.reset` (lines 98-118);
* `get_history_arrays` — `RotatorSimulation.get_history_arrays` (lines 152-169);
* `step` — `RotatorSimulation.step` (lines 171-196), with the external
  `scipy.integrate.solve_ivp` call modelled by an injected `IvpResult`.

Mutation is modelled by explicit state passing: a method which assigns to
`self` becomes a function `SimState cap → SimState cap`.  Machine floats are
modelled by real numbers (and by rationals where the program only does exact
small-integer arithmetic, as in the capacity computation).
-/

namespace Rotators

/-- State vector `[theta1, omega1, theta2, omega2]` (angle and angular
velocity of each rotator), as unpacked at line 75 of the source. -/
structure StateVec where
  theta1 : ℝ
  omega1 : ℝ
  theta2 : ℝ
  omega2 : ℝ

/-- The coupled-rotator ODE right-hand side, from `dynamics` (lines 62-78):
given time `t` (unused), state `y`, coupling `J` and gravity `g`, it returns
the derivative `[w1, dw1, w2, dw2]` with
`dw1 = -g*sin(t1) - J*sin(t1 - t2)` and `dw2 = -g*sin(t2) - J*sin(t2 - t1)`. -/
noncomputable def dynamics (t : ℝ) (y : StateVec) (J g : ℝ) : ℝ × ℝ × ℝ × ℝ :=
  (y.omega1,
   -g * Real.sin y.theta1 - J * Real.sin (y.theta1 - y.theta2),
   y.omega2,
   -g * Real.sin y.theta2 - J * Real.sin (y.theta2 - y.theta1))

namespace Config

/-- `Config.WINDOW_W = 5.0` (line 39).  The program's floats are rationals,
so the configuration constants are modelled in `ℚ`. -/
def WINDOW_W : ℚ := 5.0

/-- `Config.DT = 0.02` (line 40). -/
def DT : ℚ := 0.02

/-- `Config.validate` (lines 51-57) raises unless `WINDOW_W > 0` and
`DT > 0`; `valid w dt` holds exactly when validation passes. -/
def valid (w dt : ℚ) : Prop := 0 < w ∧ 0 < dt

end Config

/-- History capacity, from line 88:
`self.max_history = int(Config.WINDOW_W / Config.DT) + 2`.
Python's `int()` truncates toward zero, which for the positive ratios
guaranteed by `Config.validate` coincides with the floor. -/
def max_history (w dt : ℚ) : ℤ := ⌊w / dt⌋ + 2

/-- The capacity for the actual configuration, as a natural number. -/
def capNat : ℕ := (max_history Config.WINDOW_W Config.DT).toNat

/-- The angular-increment wrap of line 133:
`dtheta = (dtheta + np.pi) % (2 * np.pi) - np.pi`, where the float `%` with a
positive modulus `m` is `x - m * floor (x / m)`. -/
noncomputable def wrapDelta (d : ℝ) : ℝ :=
  (d + Real.pi) - (2 * Real.pi) * ⌊(d + Real.pi) / (2 * Real.pi)⌋ - Real.pi

/-- Writing one slot of a backing array: `arr[i] = v` (lines 144-147). -/
def bufWrite {α : Type} {cap : ℕ} (a : Fin cap → α) (i : ℕ) (v : α) :
    Fin cap → α :=
  fun j => if (j : ℕ) = i then v else a j

/-- Chronological read-out of one backing array, from lines 159-169: when
`count < cap` the live records are the array prefix of length `count`
(`arr[:count]`), otherwise the whole array rolled so that slot `idx` comes
first (`np.roll(arr, -idx)`, whose entry `j` is `arr[(idx + j) % cap]`). -/
def bufRead {α : Type} {cap : ℕ} (a : Fin cap → α) (idx count : ℕ) :
    List α :=
  if count < cap then (List.ofFn a).take count
  else List.ofFn (fun j : Fin cap => a ⟨(idx + (j : ℕ)) % cap, Nat.mod_lt _ j.pos⟩)

/-- The last `n` elements of a list (the list itself when it is shorter). -/
def lastN {α : Type} (n : ℕ) (l : List α) : List α := l.drop (l.length - n)

/-- The mutable fields of a `RotatorSimulation` object with capacity `cap`
(`max_history`): the four parallel history arrays (lines 89-92), the write
index and occupancy count (lines 94-95), and the scalar state set by `reset`
(lines 110-117). -/
structure SimState (cap : ℕ) where
  history_t : Fin cap → ℝ
  history_y : Fin cap → StateVec
  history_energy : Fin cap → ℝ × ℝ × ℝ
  history_theta_unwrapped : Fin cap → ℝ × ℝ
  history_idx : ℕ
  history_count : ℕ
  y_state : StateVec
  t_curr : ℝ
  J : ℝ
  g : ℝ
  last_theta : ℝ × ℝ
  unwrapped_theta : ℝ × ℝ

/-- `RotatorSimulation._add_to_history` (lines 120-150): per rotator, wrap the
increment `y[[0,2]] - last_theta` into `[-pi, pi)`, accumulate it into
`unwrapped_theta`, set `last_theta` to the current angles; compute the
energies (lines 138-140); store `t`, `y`, the energies and the updated
`unwrapped_theta` at slot `history_idx`; then advance the index modulo the
capacity and increment the count capped at the capacity (lines 149-150). -/
noncomputable def add_to_history {cap : ℕ} (s : SimState cap) (t : ℝ)
    (y : StateVec) : SimState cap :=
  let dtheta1 := wrapDelta (y.theta1 - s.last_theta.1)
  let dtheta2 := wrapDelta (y.theta2 - s.last_theta.2)
  let u := (s.unwrapped_theta.1 + dtheta1, s.unwrapped_theta.2 + dtheta2)
  let e1 := 0.5 * y.omega1 ^ 2 + s.g * (1.0 - Real.cos y.theta1)
  let e2 := 0.5 * y.omega2 ^ 2 + s.g * (1.0 - Real.cos y.theta2)
  let etotal := e1 + e2 + s.J * (1.0 - Real.cos (y.theta1 - y.theta2))
  { s with
    unwrapped_theta := u
    last_theta := (y.theta1, y.theta2)
    history_t := bufWrite s.history_t s.history_idx t
    history_y := bufWrite s.history_y s.history_idx y
    history_energy := bufWrite s.history_energy s.history_idx (e1, e2, etotal)
    history_theta_unwrapped := bufWrite s.history_theta_unwrapped s.history_idx u
    history_idx := (s.history_idx + 1) % cap
    history_count := min (s.history_count + 1) cap }

/-- `RotatorSimulation.reset` (lines 98-118): install the new state vector,
time `0`, write index `0`, occupancy `0`, the new parameters and the unwrap
accumulators, then seed the history with `_add_to_history(0, y_state)`. -/
noncomputable def reset {cap : ℕ} (s : SimState cap)
    (t1 w1 t2 w2 J g : ℝ) : SimState cap :=
  let s1 : SimState cap :=
    { s with
      y_state := ⟨t1, w1, t2, w2⟩
      t_curr := 0.0
      history_idx := 0
      history_count := 0
      J := J
      g := g
      last_theta := (t1, t2)
      unwrapped_theta := (t1, t2) }
  add_to_history s1 0.0 s1.y_state

/-- `RotatorSimulation.__init__` (lines 86-96): zeroed backing arrays, write
index `0`, occupancy `0` (the remaining fields do not exist before `reset`
assigns them and are given placeholder zeros), followed by `reset()` with the
default arguments `t1 = pi - 0.001, w1 = 0, t2 = 0, w2 = 0, J = 2, g = 9.81`
(line 98). -/
noncomputable def init : SimState capNat :=
  reset
    { history_t := fun _ => 0
      history_y := fun _ => ⟨0, 0, 0, 0⟩
      history_energy := fun _ => (0, 0, 0)
      history_theta_unwrapped := fun _ => (0, 0)
      history_idx := 0
      history_count := 0
      y_state := ⟨0, 0, 0, 0⟩
      t_curr := 0
      J := 0
      g := 0
      last_theta := (0, 0)
      unwrapped_theta := (0, 0) }
    (Real.pi - 0.001) 0.0 0.0 0.0 2.0 9.81

/-- `RotatorSimulation.get_history_arrays` (lines 152-169): the four parallel
chronological arrays.  All four share the single `history_count < max_history`
branch of the source. -/
def get_history_arrays {cap : ℕ} (s : SimState cap) :
    List ℝ × List StateVec × List (ℝ × ℝ × ℝ) × List (ℝ × ℝ) :=
  (bufRead s.history_t s.history_idx s.history_count,
   bufRead s.history_y s.history_idx s.history_count,
   bufRead s.history_energy s.history_idx s.history_count,
   bufRead s.history_theta_unwrapped s.history_idx s.history_count)

/-- A call of `get_history_arrays` viewed as a state transformer, returning
the object state after the call together with the returned arrays.  The
method body (lines 152-169) contains no assignment to `self`, so the state
after the call is the state before it. -/
def get_history_arrays_call {cap : ℕ} (s : SimState cap) :
    SimState cap × (List ℝ × List StateVec × List (ℝ × ℝ × ℝ) × List (ℝ × ℝ)) :=
  (s, get_history_arrays s)

/-- Outcome of the external `scipy.integrate.solve_ivp` call in `step`
(lines 179-185): either the final column of a successful solution, or a
failure (`sol.success` false, or an exception). -/
inductive IvpResult where
  | success (y : StateVec)
  | failure

/-- `RotatorSimulation.step` (lines 171-196) with the solver outcome injected:
on failure (either the `not sol.success` branch or the `except` branch) a
warning is printed and the previous `(t_curr, y_state)` is returned with no
field of the object assigned; on success `y_state` and `t_curr` are updated,
the new sample is appended to the history, and the new pair is returned. -/
noncomputable def step {cap : ℕ} (res : IvpResult) (s : SimState cap) :
    SimState cap × ℝ × StateVec :=
  match res with
  | IvpResult.failure => (s, s.t_curr, s.y_state)
  | IvpResult.success yNew =>
      let s1 : SimState cap := { s with y_state := yNew, t_curr := s.t_curr + (Config.DT : ℝ) }
      let s2 := add_to_history s1 s1.t_curr s1.y_state
      (s2, s2.t_curr, s2.y_state)

/-- Fold a list of `(t, y)` samples into the history, one
`_add_to_history` call per element. -/
noncomputable def runAppends {cap : ℕ} (s : SimState cap) :
    List (ℝ × StateVec) → SimState cap
  | [] => s
  | p :: rest => runAppends (add_to_history s p.1 p.2) rest

/-- Structural buffer invariant: the write index is in range, the occupancy
never exceeds the capacity, and while the buffer is still filling the write
index equals the occupancy (so the live records are the array prefix of
length `history_count`). -/
def BufferInv {cap : ℕ} (s : SimState cap) : Prop :=
  s.history_idx < cap ∧ s.history_count ≤ cap ∧
    (s.history_count < cap → s.history_idx = s.history_count)

/-- Unwrap invariant: per rotator, the accumulator differs from the last
ingested wrapped angle by an integer multiple of `2 * pi`. -/
def UnwrapInv {cap : ℕ} (s : SimState cap) : Prop :=
  (∃ k : ℤ, s.unwrapped_theta.1 - s.last_theta.1 = 2 * Real.pi * k) ∧
  (∃ k : ℤ, s.unwrapped_theta.2 - s.last_theta.2 = 2 * Real.pi * k)

/-- A concrete capacity-2 simulation state with empty history, used to
instantiate the universally quantified theorems at concrete inputs. -/
noncomputable def testState : SimState 2 where
  history_t := fun _ => 0
  history_y := fun _ => ⟨0, 0, 0, 0⟩
  history_energy := fun _ => (0, 0, 0)
  history_theta_unwrapped := fun _ => (0, 0)
  history_idx := 0
  history_count := 0
  y_state := ⟨0, 0, 0, 0⟩
  t_curr := 0
  J := 2
  g := 9.81
  last_theta := (0, 0)
  unwrapped_theta := (0, 0)

/-- A concrete capacity-2 state whose first rotator has last wrapped angle
`3.0` and accumulator `3.0`, matching the unwrapping example of the spec. -/
noncomputable def testState3 : SimState 2 :=
  { testState with last_theta := (3, 0), unwrapped_theta := (3, 0) }

/-- A concrete list of three samples with strictly increasing times, used to
exercise a capacity-2 buffer past its capacity. -/
def testL : List (ℝ × StateVec) :=
  [(0, ⟨0, 0, 0, 0⟩), (1, ⟨0, 0, 0, 0⟩), (2, ⟨0, 0, 0, 0⟩)]

/-! ### Buffer lemmas -/

theorem bufWrite_self {α : Type} {cap : ℕ} (a : Fin cap → α) (i : ℕ) (v : α)
    (h : i < cap) : bufWrite a i v ⟨i, h⟩ = v := by
  simp [bufWrite]

theorem bufRead_length {α : Type} {cap : ℕ} (a : Fin cap → α) (idx count : ℕ)
    (h : count ≤ cap) : (bufRead a idx count).length = count := by
  unfold bufRead
  by_cases hlt : count < cap
  · rw [if_pos hlt]
    simp
    omega
  · rw [if_neg hlt]
    simp
    omega

theorem lastN_of_length_le {α : Type} {n : ℕ} {l : List α}
    (h : l.length ≤ n) : lastN n l = l := by
  unfold lastN
  have h0 : l.length - n = 0 := by omega
  rw [h0, List.drop_zero]

theorem lastN_append_lastN {α : Type} (n : ℕ) (l l' : List α) :
    lastN n (lastN n l ++ l') = lastN n (l ++ l') := by
  unfold lastN
  rw [List.drop_append_eq_append_drop, List.drop_append_eq_append_drop,
      List.drop_drop]
  congr 1
  · congr 1
    simp
    omega
  · congr 1
    simp
    omega

theorem lastN_snoc_of_length {α : Type} {l : List α} {v : α} {n : ℕ}
    (h : l.length = n) (hn : 0 < n) :
    lastN n (l ++ [v]) = l.drop 1 ++ [v] := by
  unfold lastN
  have h1 : (l ++ [v]).length - n = 1 := by simp [h]
  rw [h1, List.drop_append_eq_append_drop, h]
  have h2 : 1 - n = 0 := by omega
  rw [h2, List.drop_zero]

theorem add_succ_mod_ne {cap i j : ℕ} (hi : i < cap) (hj1 : j + 1 < cap) :
    (i + 1 + j) % cap ≠ i := by
  rcases Nat.lt_or_ge (i + 1 + j) cap with h | h
  · rw [Nat.mod_eq_of_lt h]
    omega
  · rw [Nat.mod_eq_sub_mod h, Nat.mod_eq_of_lt (by omega)]
    omega

theorem add_cap_mod {cap i : ℕ} (hi : i < cap) : (i + cap) % cap = i := by
  rw [Nat.add_mod_right]
  exact Nat.mod_eq_of_lt hi

/-- One append shifts the chronological window: writing `v` at the current
write index and advancing index and count as `_add_to_history` does turns the
chronological read-out `r` into the last `cap` elements of `r ++ [v]`. -/
theorem bufRead_bufWrite_step {α : Type} {cap : ℕ} (a : Fin cap → α)
    (i c : ℕ) (v : α) (hi : i < cap) (hc : c ≤ cap) (hf : c < cap → i = c) :
    bufRead (bufWrite a i v) ((i + 1) % cap) (min (c + 1) cap) =
      lastN cap (bufRead a i c ++ [v]) := by
  have hcap : 0 < cap := lt_of_le_of_lt (Nat.zero_le i) hi
  rcases Nat.lt_or_ge c cap with hlt | hge
  · -- FILLING: the write index equals the occupancy
    have hic : i = c := hf hlt
    subst hic
    rw [lastN_of_length_le (by simp [bufRead, hlt]; omega)]
    rcases Nat.lt_or_ge (i + 1) cap with h1 | h1
    · -- still filling afterwards
      have hmin : min (i + 1) cap = i + 1 := Nat.min_eq_left (Nat.le_of_lt h1)
      have hmod : (i + 1) % cap = i + 1 := Nat.mod_eq_of_lt h1
      rw [hmin, hmod]
      unfold bufRead
      rw [if_pos h1, if_pos hlt]
      apply List.ext_getElem
      · simp
        omega
      · intro j hj1 hj2
        simp only [List.length_take, List.length_ofFn] at hj1
        by_cases hji : j < i
        · have hne : j ≠ i := Nat.ne_of_lt hji
          have hjc : j < cap := by omega
          simp [List.getElem_append, List.getElem_take, List.getElem_ofFn,
            bufWrite, hne, hji, hjc]
        · have hje : j = i := by omega
          subst hje
          simp [List.getElem_append, List.getElem_take, List.getElem_ofFn,
            bufWrite]
    · -- the buffer becomes full with this append
      have h2 : i + 1 = cap := by omega
      have hmin : min (i + 1) cap = cap := by omega
      have hmod : (i + 1) % cap = 0 := by rw [h2, Nat.mod_self]
      rw [hmin, hmod]
      unfold bufRead
      rw [if_neg (lt_irrefl cap), if_pos hlt]
      apply List.ext_getElem
      · simp
        omega
      · intro j hj1 hj2
        simp only [List.length_ofFn] at hj1
        simp only [List.getElem_ofFn]
        have hj0 : (0 + j) % cap = j := by
          rw [Nat.zero_add]
          exact Nat.mod_eq_of_lt hj1
        simp only [hj0, bufWrite]
        by_cases hji : j < i
        · have hne : j ≠ i := Nat.ne_of_lt hji
          have hjc : j < cap := by omega
          simp [List.getElem_append, List.getElem_take, List.getElem_ofFn,
            hne, hji, hjc]
        · have hje : j = i := by omega
          subst hje
          simp [List.getElem_append, List.getElem_take, List.getElem_ofFn]
  · -- WRAPPED: the buffer is full, the oldest slot is overwritten
    have hcc : cap = c := le_antisymm hge hc
    subst hcc
    have hmin : min (cap + 1) cap = cap := by omega
    rw [hmin]
    unfold bufRead
    rw [if_neg (lt_irrefl cap), if_neg (lt_irrefl cap)]
    rw [lastN_snoc_of_length (by simp) hcap]
    apply List.ext_getElem
    · simp
      omega
    · intro j hj1 hj2
      simp only [List.length_ofFn] at hj1
      simp only [List.getElem_ofFn, bufWrite, Nat.mod_add_mod]
      rcases Nat.lt_or_ge (j + 1) cap with hj2c | hj2c
      · have hne : (i + 1 + j) % cap ≠ i := add_succ_mod_ne hi hj2c
        rw [if_neg hne]
        rw [List.getElem_append_left (by simp; omega)]
        simp only [List.getElem_drop, List.getElem_ofFn]
        have harith : i + 1 + j = i + (1 + j) := Nat.add_assoc i 1 j
        simp only [harith]
      · have hje : j + 1 = cap := by omega
        have hei : (i + 1 + j) % cap = i := by
          have h3 : i + 1 + j = i + cap := by omega
          rw [h3]
          exact add_cap_mod hi
        rw [if_pos hei]
        rw [List.getElem_append_right (by simp; omega)]
        simp

/-! ### Lemmas about `_add_to_history` and runs of appends -/

theorem add_history_idx {cap : ℕ} (s : SimState cap) (t : ℝ) (y : StateVec) :
    (add_to_history s t y).history_idx = (s.history_idx + 1) % cap := rfl

theorem add_history_count {cap : ℕ} (s : SimState cap) (t : ℝ) (y : StateVec) :
    (add_to_history s t y).history_count = min (s.history_count + 1) cap := rfl

theorem add_history_t {cap : ℕ} (s : SimState cap) (t : ℝ) (y : StateVec) :
    (add_to_history s t y).history_t = bufWrite s.history_t s.history_idx t := rfl

theorem add_unwrapped {cap : ℕ} (s : SimState cap) (t : ℝ) (y : StateVec) :
    (add_to_history s t y).unwrapped_theta =
      (s.unwrapped_theta.1 + wrapDelta (y.theta1 - s.last_theta.1),
       s.unwrapped_theta.2 + wrapDelta (y.theta2 - s.last_theta.2)) := rfl

theorem add_last_theta {cap : ℕ} (s : SimState cap) (t : ℝ) (y : StateVec) :
    (add_to_history s t y).last_theta = (y.theta1, y.theta2) := rfl

theorem bufferInv_add {cap : ℕ} (s : SimState cap) (t : ℝ) (y : StateVec)
    (h : BufferInv s) : BufferInv (add_to_history s t y) := by
  obtain ⟨h1, h2, h3⟩ := h
  have hcap : 0 < cap := lt_of_le_of_lt (Nat.zero_le _) h1
  refine ⟨?_, ?_, ?_⟩
  · rw [add_history_idx]
    exact Nat.mod_lt _ hcap
  · rw [add_history_count]
    omega
  · rw [add_history_idx, add_history_count]
    intro hlt
    have hc1 : s.history_count + 1 < cap := by omega
    have hie : s.history_idx = s.history_count := h3 (by omega)
    rw [hie, Nat.mod_eq_of_lt hc1]
    omega

theorem get_times_length {cap : ℕ} (s : SimState cap) (h : BufferInv s) :
    (get_history_arrays s).1.length = s.history_count :=
  bufRead_length _ _ _ h.2.1

theorem get_times_add {cap : ℕ} (s : SimState cap) (t : ℝ) (y : StateVec)
    (h : BufferInv s) :
    (get_history_arrays (add_to_history s t y)).1 =
      lastN cap ((get_history_arrays s).1 ++ [t]) :=
  bufRead_bufWrite_step s.history_t s.history_idx s.history_count t
    h.1 h.2.1 h.2.2

theorem bufferInv_runAppends {cap : ℕ} (s : SimState cap)
    (L : List (ℝ × StateVec)) (h : BufferInv s) :
    BufferInv (runAppends s L) := by
  induction L generalizing s with
  | nil => exact h
  | cons p rest ih => exact ih _ (bufferInv_add _ _ _ h)

theorem get_times_runAppends {cap : ℕ} (s : SimState cap)
    (L : List (ℝ × StateVec)) (h : BufferInv s) :
    (get_history_arrays (runAppends s L)).1 =
      lastN cap ((get_history_arrays s).1 ++ L.map Prod.fst) := by
  induction L generalizing s with
  | nil =>
    show (get_history_arrays s).1 = _
    rw [List.map_nil, List.append_nil]
    rw [lastN_of_length_le]
    rw [get_times_length _ h]
    exact h.2.1
  | cons p rest ih =>
    show (get_history_arrays (runAppends (add_to_history s p.1 p.2) rest)).1 = _
    rw [ih _ (bufferInv_add _ _ _ h), get_times_add _ _ _ h, lastN_append_lastN,
        List.append_assoc]
    simp

theorem count_runAppends {cap : ℕ} (s : SimState cap)
    (L : List (ℝ × StateVec)) (hc : s.history_count ≤ cap) :
    (runAppends s L).history_count = min (s.history_count + L.length) cap := by
  induction L generalizing s with
  | nil =>
    show s.history_count = _
    simp
    omega
  | cons p rest ih =>
    show (runAppends (add_to_history s p.1 p.2) rest).history_count = _
    rw [ih _ (by rw [add_history_count]; omega), add_history_count]
    simp
    omega

theorem get_times_empty {cap : ℕ} (s : SimState cap) (hcap : 0 < cap)
    (hc : s.history_count = 0) : (get_history_arrays s).1 = [] := by
  show bufRead s.history_t s.history_idx s.history_count = []
  rw [hc]
  unfold bufRead
  rw [if_pos hcap]
  exact List.take_zero _

/-! ### Lemmas about the angle unwrap -/

theorem wrapDelta_sub (d : ℝ) :
    d - wrapDelta d = 2 * Real.pi * ⌊(d + Real.pi) / (2 * Real.pi)⌋ := by
  unfold wrapDelta
  ring

theorem wrapDelta_bounds (d : ℝ) :
    -Real.pi ≤ wrapDelta d ∧ wrapDelta d < Real.pi := by
  have hm : (0 : ℝ) < 2 * Real.pi := by linarith [Real.pi_pos]
  have h1 := Int.sub_floor_div_mul_nonneg (d + Real.pi) hm
  have h2 := Int.sub_floor_div_mul_lt (d + Real.pi) hm
  unfold wrapDelta
  constructor <;>
    linarith [mul_comm (2 * Real.pi)
      ((⌊(d + Real.pi) / (2 * Real.pi)⌋ : ℤ) : ℝ)]

theorem wrapDelta_abs_le (d : ℝ) : |wrapDelta d| ≤ Real.pi := by
  obtain ⟨h1, h2⟩ := wrapDelta_bounds d
  rw [abs_le]
  constructor <;> linarith

theorem wrapDelta_zero : wrapDelta 0 = 0 := by
  unfold wrapDelta
  have hpi : (0 : ℝ) < Real.pi := Real.pi_pos
  have h : ((0 : ℝ) + Real.pi) / (2 * Real.pi) = 1 / 2 := by
    rw [zero_add, div_eq_iff (by linarith : (2 : ℝ) * Real.pi ≠ 0)]
    ring
  rw [h]
  have h2 : ⌊(1 : ℝ) / 2⌋ = 0 := by
    rw [Int.floor_eq_iff] <;> norm_num
  rw [h2]
  push_cast
  ring

theorem unwrapInv_add {cap : ℕ} (s : SimState cap) (t : ℝ) (y : StateVec)
    (h : UnwrapInv s) : UnwrapInv (add_to_history s t y) := by
  obtain ⟨⟨k1, hk1⟩, ⟨k2, hk2⟩⟩ := h
  constructor
  · refine ⟨k1 - ⌊(y.theta1 - s.last_theta.1 + Real.pi) / (2 * Real.pi)⌋, ?_⟩
    have hw := wrapDelta_sub (y.theta1 - s.last_theta.1)
    rw [add_unwrapped, add_last_theta]
    push_cast
    linarith [hk1, hw]
  · refine ⟨k2 - ⌊(y.theta2 - s.last_theta.2 + Real.pi) / (2 * Real.pi)⌋, ?_⟩
    have hw := wrapDelta_sub (y.theta2 - s.last_theta.2)
    rw [add_unwrapped, add_last_theta]
    push_cast
    linarith [hk2, hw]

theorem unwrapInv_runAppends {cap : ℕ} (s : SimState cap)
    (L : List (ℝ × StateVec)) (h : UnwrapInv s) :
    UnwrapInv (runAppends s L) := by
  induction L generalizing s with
  | nil => exact h
  | cons p rest ih => exact ih _ (unwrapInv_add _ _ _ h)

theorem unwrapInv_reset {cap : ℕ} (s : SimState cap)
    (t1 w1 t2 w2 J g : ℝ) : UnwrapInv (reset s t1 w1 t2 w2 J g) := by
  unfold reset
  apply unwrapInv_add
  constructor
  · exact ⟨0, by push_cast; ring⟩
  · exact ⟨0, by push_cast; ring⟩

theorem bufferInv_reset {cap : ℕ} (hcap : 0 < cap) (s : SimState cap)
    (t1 w1 t2 w2 J g : ℝ) : BufferInv (reset s t1 w1 t2 w2 J g) := by
  unfold reset
  exact bufferInv_add _ _ _ ⟨hcap, Nat.zero_le _, fun _ => rfl⟩

theorem lastN_length {α : Type} (n : ℕ) (l : List α) :
    (lastN n l).length = min n l.length := by
  unfold lastN
  rw [List.length_drop]
  omega

theorem wrapDelta_neg_six : wrapDelta (-6) = 2 * Real.pi - 6 := by
  unfold wrapDelta
  have hpi3 : (3 : ℝ) < Real.pi := Real.pi_gt_three
  have hpi4 : Real.pi < 3.15 := Real.pi_lt_315
  have hm : (0 : ℝ) < 2 * Real.pi := by linarith
  have hfl : ⌊((-6 : ℝ) + Real.pi) / (2 * Real.pi)⌋ = -1 := by
    rw [Int.floor_eq_iff]
    constructor
    · rw [le_div_iff hm]
      push_cast
      linarith
    · push_cast
      have hnum : (-6 : ℝ) + Real.pi < 0 := by linarith
      have := div_neg_of_neg_of_pos hnum hm
      linarith
  rw [hfl]
  push_cast
  ring

theorem bufRead_write_zero {α : Type} {cap : ℕ} (hcap : 1 < cap)
    (a : Fin cap → α) (v : α) :
    bufRead (bufWrite a 0 v) ((0 + 1) % cap) (min (0 + 1) cap) = [v] := by
  have h1 : min (0 + 1) cap = 1 := by omega
  rw [h1]
  unfold bufRead
  rw [if_pos (by omega : 1 < cap)]
  apply List.ext_getElem
  · simp
    omega
  · intro j hj1 hj2
    simp only [List.length_cons, List.length_nil] at hj2
    have hj0 : j = 0 := by omega
    subst hj0
    simp [List.getElem_take, List.getElem_ofFn, bufWrite]

theorem reset_count {cap : ℕ} (hcap : 0 < cap) (s : SimState cap)
    (t1 w1 t2 w2 J g : ℝ) :
    (reset s t1 w1 t2 w2 J g).history_count = 1 := by
  show min (0 + 1) cap = 1
  omega

theorem get_reset {cap : ℕ} (hcap : 1 < cap) (s : SimState cap)
    (t1 w1 t2 w2 J g : ℝ) :
    get_history_arrays (reset s t1 w1 t2 w2 J g) =
      ([0],
       [⟨t1, w1, t2, w2⟩],
       [(0.5 * w1 ^ 2 + g * (1.0 - Real.cos t1),
         0.5 * w2 ^ 2 + g * (1.0 - Real.cos t2),
         0.5 * w1 ^ 2 + g * (1.0 - Real.cos t1) +
           (0.5 * w2 ^ 2 + g * (1.0 - Real.cos t2)) +
           J * (1.0 - Real.cos (t1 - t2)))],
       [(t1, t2)]) := by
  show (bufRead (bufWrite s.history_t 0 (0.0 : ℝ)) ((0 + 1) % cap) (min (0 + 1) cap),
        bufRead (bufWrite s.history_y 0 _) ((0 + 1) % cap) (min (0 + 1) cap),
        bufRead (bufWrite s.history_energy 0 _) ((0 + 1) % cap) (min (0 + 1) cap),
        bufRead (bufWrite s.history_theta_unwrapped 0 _) ((0 + 1) % cap)
          (min (0 + 1) cap)) = _
  rw [bufRead_write_zero hcap, bufRead_write_zero hcap, bufRead_write_zero hcap,
      bufRead_write_zero hcap]
  rw [sub_self, sub_self, wrapDelta_zero, add_zero, add_zero]
  norm_num

theorem capNat_eq : capNat = 252 := by
  unfold capNat max_history Config.WINDOW_W Config.DT
  have h : (5.0 : ℚ) / 0.02 = 250 := by norm_num
  rw [h]
  decide

/-! ### The claims -/

/-- C1: for every sequence of more than `cap` appends into a fresh buffer,
`get_history_arrays` returns exactly `cap` records (the read-out taken from
the rotation of the backing array that puts slot `history_idx` at position 0,
since the occupancy has reached the capacity), whose times are strictly
increasing and equal, in order, to the times of the last `cap` appended
records. -/
theorem c1_buffer_chronological {cap : ℕ} (hcap : 0 < cap) (s : SimState cap)
    (hidx : s.history_idx = 0) (hcount : s.history_count = 0)
    (L : List (ℝ × StateVec)) (hN : cap < L.length)
    (hmono : (L.map Prod.fst).Pairwise (· < ·)) :
    (get_history_arrays (runAppends s L)).1 =
        (L.map Prod.fst).drop (L.length - cap) ∧
      (get_history_arrays (runAppends s L)).1.length = cap ∧
      (get_history_arrays (runAppends s L)).1.Pairwise (· < ·) ∧
      (runAppends s L).history_count = cap := by
  have hInv : BufferInv s := ⟨by omega, by omega, fun _ => by omega⟩
  have htimes : (get_history_arrays (runAppends s L)).1 =
      lastN cap (L.map Prod.fst) := by
    rw [get_times_runAppends _ _ hInv, get_times_empty _ hcap hcount,
        List.nil_append]
  refine ⟨?_, ?_, ?_, ?_⟩
  · rw [htimes]
    unfold lastN
    rw [List.length_map]
  · rw [htimes, lastN_length, List.length_map]
    omega
  · rw [htimes]
    unfold lastN
    exact hmono.sublist (List.drop_sublist _ _)
  · rw [count_runAppends _ _ (by omega)]
    omega

/-- Witness for C1 at capacity 2 and the three appended times 0, 1, 2. -/
theorem c1_buffer_chronological_witness :
    (0 < 2 ∧ testState.history_idx = 0 ∧ testState.history_count = 0 ∧
      2 < testL.length ∧ (testL.map Prod.fst).Pairwise (· < ·)) ∧
      ((get_history_arrays (runAppends testState testL)).1 =
          (testL.map Prod.fst).drop (testL.length - 2) ∧
        (get_history_arrays (runAppends testState testL)).1.length = 2 ∧
        (get_history_arrays (runAppends testState testL)).1.Pairwise (· < ·) ∧
        (runAppends testState testL).history_count = 2) := by
  have h1 : (0 : ℕ) < 2 := by norm_num
  have h2 : testState.history_idx = 0 := rfl
  have h3 : testState.history_count = 0 := rfl
  have h4 : 2 < testL.length := by norm_num [testL]
  have h5 : (testL.map Prod.fst).Pairwise (· < ·) := by
    norm_num [testL, List.pairwise_cons]
  exact ⟨⟨h1, h2, h3, h4, h5⟩,
    c1_buffer_chronological h1 testState h2 h3 testL h4 h5⟩

/-- C2 counterexample: the configuration `WINDOW_W = 5`, `DT = 2` is valid,
but the capacity computed by the code (`int(5/2) + 2 = 4`) differs from the
`ceil(5/2) + 2 = 5` stated by the claim. -/
theorem c2_capacity_counterexample :
    Config.valid 5 2 ∧ max_history 5 2 ≠ ⌈(5 : ℚ) / 2⌉ + 2 := by
  refine ⟨⟨by norm_num, by norm_num⟩, ?_⟩
  have hf : ⌊(5 : ℚ) / 2⌋ = 2 := by
    rw [Int.floor_eq_iff] <;> norm_num
  have hc : ⌈(5 : ℚ) / 2⌉ = 3 := by
    rw [Int.ceil_eq_iff] <;> norm_num
  unfold max_history
  rw [hf, hc]
  norm_num

/-- C2 (amended): for every valid configuration the capacity is
`floor(WINDOW_W / DT) + 2` (in particular at least 2), and it agrees with
the claimed `ceil(WINDOW_W / DT) + 2` exactly in the divisible case. -/
theorem c2_capacity_floor (w dt : ℚ) (h : Config.valid w dt) :
    max_history w dt = ⌊w / dt⌋ + 2 ∧ 2 ≤ max_history w dt ∧
      ((∃ n : ℤ, w = n * dt) → max_history w dt = ⌈w / dt⌉ + 2) := by
  obtain ⟨hw, hdt⟩ := h
  refine ⟨rfl, ?_, ?_⟩
  · have h0 : 0 ≤ ⌊w / dt⌋ := Int.floor_nonneg.mpr (by positivity)
    unfold max_history
    omega
  · rintro ⟨n, rfl⟩
    have hq : (n : ℚ) * dt / dt = (n : ℚ) := by
      field_simp
    unfold max_history
    rw [hq, Int.floor_intCast, Int.ceil_intCast]

/-- Witness for the amended C2 at the actual configuration
`WINDOW_W = 5`, `DT = 0.02`, where the ratio is the integer 250. -/
theorem c2_capacity_floor_witness :
    Config.valid Config.WINDOW_W Config.DT ∧
      (max_history Config.WINDOW_W Config.DT =
          ⌊Config.WINDOW_W / Config.DT⌋ + 2 ∧
        2 ≤ max_history Config.WINDOW_W Config.DT ∧
        ((∃ n : ℤ, Config.WINDOW_W = n * Config.DT) →
          max_history Config.WINDOW_W Config.DT =
            ⌈Config.WINDOW_W / Config.DT⌉ + 2)) := by
  have hv : Config.valid Config.WINDOW_W Config.DT := by
    constructor <;> norm_num [Config.WINDOW_W, Config.DT, Config.valid]
  exact ⟨hv, c2_capacity_floor Config.WINDOW_W Config.DT hv⟩

/-- C3: every ingestion updates the unwrap state per rotator by wrapping the
raw delta into `[-pi, pi)` via `((raw + pi) mod 2 pi) - pi`, accumulating it,
and setting `last_theta` to the current wrapped angles; with `last_theta = 3`
and a new sample `-3`, the accumulator increases by `2 pi - 6`, which is
about `0.283`, to `2 pi - 3`, which is about `3.283`, rather than becoming
`-3`. -/
theorem c3_unwrap_update {cap : ℕ} (s : SimState cap) (t : ℝ) (y : StateVec) :
    (add_to_history s t y).unwrapped_theta =
        (s.unwrapped_theta.1 + wrapDelta (y.theta1 - s.last_theta.1),
         s.unwrapped_theta.2 + wrapDelta (y.theta2 - s.last_theta.2)) ∧
      (add_to_history s t y).last_theta = (y.theta1, y.theta2) ∧
      (∀ d : ℝ, wrapDelta d =
        ((d + Real.pi) - (2 * Real.pi) * ⌊(d + Real.pi) / (2 * Real.pi)⌋)
          - Real.pi) ∧
      (s.last_theta.1 = 3 → y.theta1 = -3 → s.unwrapped_theta.1 = 3 →
        (add_to_history s t y).unwrapped_theta.1 = 3 + (2 * Real.pi - 6) ∧
          0.283 < 2 * Real.pi - 6 ∧ 2 * Real.pi - 6 < 0.284 ∧
          3.283 < 3 + (2 * Real.pi - 6) ∧ 3 + (2 * Real.pi - 6) < 3.284) := by
  refine ⟨rfl, rfl, fun d => rfl, ?_⟩
  intro hl hy hu
  have hpilo : (3.141592 : ℝ) < Real.pi := Real.pi_gt_3141592
  have hpihi : Real.pi < 3.141593 := Real.pi_lt_3141593
  have hval : (add_to_history s t y).unwrapped_theta.1 = 3 + (2 * Real.pi - 6) := by
    rw [add_unwrapped]
    show s.unwrapped_theta.1 + wrapDelta (y.theta1 - s.last_theta.1) = _
    rw [hl, hy, hu, show (-3 : ℝ) - 3 = -6 by norm_num, wrapDelta_neg_six]
  refine ⟨hval, by linarith, by linarith, by linarith, by linarith⟩

/-- Witness for C3 at the concrete unwrap state of the spec example. -/
theorem c3_unwrap_update_witness :
    (testState3.last_theta.1 = 3 ∧
      (⟨-3, 0, 0, 0⟩ : StateVec).theta1 = -3 ∧
      testState3.unwrapped_theta.1 = 3) ∧
      ((add_to_history testState3 0 ⟨-3, 0, 0, 0⟩).unwrapped_theta.1 =
          3 + (2 * Real.pi - 6) ∧
        0.283 < 2 * Real.pi - 6 ∧ 2 * Real.pi - 6 < 0.284 ∧
        3.283 < 3 + (2 * Real.pi - 6) ∧ 3 + (2 * Real.pi - 6) < 3.284) :=
  ⟨⟨rfl, rfl, rfl⟩,
    (c3_unwrap_update testState3 0 ⟨-3, 0, 0, 0⟩).2.2.2 rfl rfl rfl⟩

/-- C4: when the integrator fails (unsuccessful solve or exception), `step`
returns the previous time and state, and the engine state — in particular
the history occupancy — is completely unchanged: the rejection is atomic. -/
theorem c4_rejected_step_atomic {cap : ℕ} (s : SimState cap) :
    step IvpResult.failure s = (s, s.t_curr, s.y_state) ∧
      (step IvpResult.failure s).1 = s ∧
      (step IvpResult.failure s).1.history_count = s.history_count :=
  ⟨rfl, rfl, rfl⟩

/-- C5: along every run of ingestions after a reset, each rotator's
accumulator differs from its last wrapped angle by an integer multiple of
`2 pi`, and a single ingestion never moves an accumulator by more than `pi`
in magnitude. -/
theorem c5_unwrap_invariant {cap : ℕ} (s : SimState cap)
    (t1 w1 t2 w2 J g : ℝ) (L : List (ℝ × StateVec)) :
    UnwrapInv (runAppends (reset s t1 w1 t2 w2 J g) L) ∧
      (∀ (s2 : SimState cap) (t : ℝ) (y : StateVec),
        |(add_to_history s2 t y).unwrapped_theta.1 - s2.unwrapped_theta.1|
            ≤ Real.pi ∧
          |(add_to_history s2 t y).unwrapped_theta.2 - s2.unwrapped_theta.2|
            ≤ Real.pi) := by
  refine ⟨unwrapInv_runAppends _ _ (unwrapInv_reset _ _ _ _ _ _ _), ?_⟩
  intro s2 t y
  rw [add_unwrapped]
  constructor
  · simpa using wrapDelta_abs_le (y.theta1 - s2.last_theta.1)
  · simpa using wrapDelta_abs_le (y.theta2 - s2.last_theta.2)

/-- C6: every ingestion stores at the written slot the energies
`e1 = 0.5 w1^2 + g (1 - cos t1)`, `e2 = 0.5 w2^2 + g (1 - cos t2)` and
`e_total = e1 + e2 + J (1 - cos (t1 - t2))`; at the zero state all three
are exactly `0`. -/
theorem c6_energy_formulas {cap : ℕ} (s : SimState cap) (t : ℝ) (y : StateVec)
    (j : Fin cap) (hj : (j : ℕ) = s.history_idx) :
    (add_to_history s t y).history_energy j =
        (0.5 * y.omega1 ^ 2 + s.g * (1 - Real.cos y.theta1),
         0.5 * y.omega2 ^ 2 + s.g * (1 - Real.cos y.theta2),
         0.5 * y.omega1 ^ 2 + s.g * (1 - Real.cos y.theta1) +
           (0.5 * y.omega2 ^ 2 + s.g * (1 - Real.cos y.theta2)) +
           s.J * (1 - Real.cos (y.theta1 - y.theta2))) ∧
      (y = ⟨0, 0, 0, 0⟩ →
        (add_to_history s t y).history_energy j = (0, 0, 0)) := by
  have hstore : (add_to_history s t y).history_energy j =
      (0.5 * y.omega1 ^ 2 + s.g * (1.0 - Real.cos y.theta1),
       0.5 * y.omega2 ^ 2 + s.g * (1.0 - Real.cos y.theta2),
       0.5 * y.omega1 ^ 2 + s.g * (1.0 - Real.cos y.theta1) +
         (0.5 * y.omega2 ^ 2 + s.g * (1.0 - Real.cos y.theta2)) +
         s.J * (1.0 - Real.cos (y.theta1 - y.theta2))) := by
    show bufWrite s.history_energy s.history_idx _ j = _
    unfold bufWrite
    rw [if_pos hj]
  constructor
  · rw [hstore]
    norm_num
  · intro hy
    subst hy
    rw [hstore]
    norm_num [Real.cos_zero]

/-- Witness for C6 at the zero state and slot 0 of a capacity-2 buffer. -/
theorem c6_energy_formulas_witness :
    ((0 : Fin 2) : ℕ) = testState.history_idx ∧
      ((add_to_history testState 0 ⟨0, 0, 0, 0⟩).history_energy 0 =
          (0.5 * (⟨0, 0, 0, 0⟩ : StateVec).omega1 ^ 2 +
             testState.g * (1 - Real.cos (⟨0, 0, 0, 0⟩ : StateVec).theta1),
           0.5 * (⟨0, 0, 0, 0⟩ : StateVec).omega2 ^ 2 +
             testState.g * (1 - Real.cos (⟨0, 0, 0, 0⟩ : StateVec).theta2),
           0.5 * (⟨0, 0, 0, 0⟩ : StateVec).omega1 ^ 2 +
             testState.g * (1 - Real.cos (⟨0, 0, 0, 0⟩ : StateVec).theta1) +
             (0.5 * (⟨0, 0, 0, 0⟩ : StateVec).omega2 ^ 2 +
               testState.g * (1 - Real.cos (⟨0, 0, 0, 0⟩ : StateVec).theta2)) +
             testState.J *
               (1 - Real.cos ((⟨0, 0, 0, 0⟩ : StateVec).theta1 -
                 (⟨0, 0, 0, 0⟩ : StateVec).theta2))) ∧
        (add_to_history testState 0 ⟨0, 0, 0, 0⟩).history_energy 0 =
          (0, 0, 0)) := by
  have hj : ((0 : Fin 2) : ℕ) = testState.history_idx := rfl
  have h := c6_energy_formulas testState 0 ⟨0, 0, 0, 0⟩ 0 hj
  exact ⟨hj, h.1, h.2 rfl⟩

/-- C7: immediately after any `reset`, the chronological read-out is exactly
one record — the seed sample of the new initial conditions, with time 0 —
independently of everything stored before the reset, and the occupancy is
1 (it was zeroed before the seed was appended). -/
theorem c7_reset_seed {cap : ℕ} (hcap : 1 < cap) (s : SimState cap)
    (t1 w1 t2 w2 J g : ℝ) :
    get_history_arrays (reset s t1 w1 t2 w2 J g) =
        ([0],
         [⟨t1, w1, t2, w2⟩],
         [(0.5 * w1 ^ 2 + g * (1.0 - Real.cos t1),
           0.5 * w2 ^ 2 + g * (1.0 - Real.cos t2),
           0.5 * w1 ^ 2 + g * (1.0 - Real.cos t1) +
             (0.5 * w2 ^ 2 + g * (1.0 - Real.cos t2)) +
             J * (1.0 - Real.cos (t1 - t2)))],
         [(t1, t2)]) ∧
      (reset s t1 w1 t2 w2 J g).history_count = 1 :=
  ⟨get_reset hcap s t1 w1 t2 w2 J g, reset_count (by omega) s t1 w1 t2 w2 J g⟩

/-- Witness for C7 at capacity 2 with all-zero initial conditions. -/
theorem c7_reset_seed_witness :
    1 < 2 ∧
      (get_history_arrays (reset testState 0 0 0 0 0 0) =
          ([0],
           [⟨0, 0, 0, 0⟩],
           [(0.5 * (0 : ℝ) ^ 2 + 0 * (1.0 - Real.cos (0 : ℝ)),
             0.5 * (0 : ℝ) ^ 2 + 0 * (1.0 - Real.cos (0 : ℝ)),
             0.5 * (0 : ℝ) ^ 2 + 0 * (1.0 - Real.cos (0 : ℝ)) +
               (0.5 * (0 : ℝ) ^ 2 + 0 * (1.0 - Real.cos (0 : ℝ))) +
               0 * (1.0 - Real.cos ((0 : ℝ) - 0)))],
           [((0 : ℝ), (0 : ℝ))]) ∧
        (reset testState 0 0 0 0 0 0).history_count = 1) :=
  ⟨by norm_num, c7_reset_seed (by norm_num) testState 0 0 0 0 0 0⟩

/-- C8: the dynamics function is pure and independent of the time argument,
and returns exactly the derivative
`(w1, -g sin t1 - J sin (t1 - t2), w2, -g sin t2 - J sin (t2 - t1))`. -/
theorem c8_dynamics_pure (t u : ℝ) (y : StateVec) (J g : ℝ) :
    dynamics t y J g = dynamics u y J g ∧
      dynamics t y J g =
        (y.omega1,
         -g * Real.sin y.theta1 - J * Real.sin (y.theta1 - y.theta2),
         y.omega2,
         -g * Real.sin y.theta2 - J * Real.sin (y.theta2 - y.theta1)) :=
  ⟨rfl, rfl⟩

/-- C9: a `get_history_arrays` call leaves the engine state unchanged (the
method assigns no field), and its output is never stale or duplicated: it
consists of exactly the live records — the last at most `cap` appended
samples — and contains no duplicate when the appended times are distinct. -/
theorem c9_read_pure {cap : ℕ} (hcap : 0 < cap) (s : SimState cap)
    (hidx : s.history_idx = 0) (hcount : s.history_count = 0)
    (L : List (ℝ × StateVec)) (hnd : (L.map Prod.fst).Nodup) :
    (∀ s2 : SimState cap, (get_history_arrays_call s2).1 = s2) ∧
      (get_history_arrays_call (runAppends s L)).2.1 =
        lastN cap (L.map Prod.fst) ∧
      (get_history_arrays_call (runAppends s L)).2.1.Nodup := by
  have hInv : BufferInv s := ⟨by omega, by omega, fun _ => by omega⟩
  have htimes : (get_history_arrays (runAppends s L)).1 =
      lastN cap (L.map Prod.fst) := by
    rw [get_times_runAppends _ _ hInv, get_times_empty _ hcap hcount,
        List.nil_append]
  refine ⟨fun _ => rfl, htimes, ?_⟩
  show (get_history_arrays (runAppends s L)).1.Nodup
  rw [htimes]
  unfold lastN
  exact hnd.sublist (List.drop_sublist _ _)

/-- Witness for C9 at capacity 2 and three distinct appended times. -/
theorem c9_read_pure_witness :
    (0 < 2 ∧ testState.history_idx = 0 ∧ testState.history_count = 0 ∧
      (testL.map Prod.fst).Nodup) ∧
      ((∀ s2 : SimState 2, (get_history_arrays_call s2).1 = s2) ∧
        (get_history_arrays_call (runAppends testState testL)).2.1 =
          lastN 2 (testL.map Prod.fst) ∧
        (get_history_arrays_call (runAppends testState testL)).2.1.Nodup) := by
  have h1 : (0 : ℕ) < 2 := by norm_num
  have h2 : testState.history_idx = 0 := rfl
  have h3 : testState.history_count = 0 := rfl
  have h4 : (testL.map Prod.fst).Nodup := by norm_num [testL]
  exact ⟨⟨h1, h2, h3, h4⟩, c9_read_pure h1 testState h2 h3 testL h4⟩

/-- C10: the structural buffer invariant — write index in range, occupancy
at most the capacity, and write index equal to occupancy while filling —
holds after construction, after every reset, and is preserved by every
step. -/
theorem c10_structural_invariant {cap : ℕ} (hcap : 0 < cap)
    (s : SimState cap) (t1 w1 t2 w2 J g : ℝ) (res : IvpResult)
    (hs : BufferInv s) :
    BufferInv init ∧ BufferInv (reset s t1 w1 t2 w2 J g) ∧
      BufferInv (step res s).1 := by
  refine ⟨?_, bufferInv_reset hcap s t1 w1 t2 w2 J g, ?_⟩
  · unfold init
    exact bufferInv_reset (by rw [capNat_eq]; norm_num) _ _ _ _ _ _ _
  · cases res with
    | failure => exact hs
    | success yNew => exact bufferInv_add _ _ _ hs

/-- Witness for C10 at capacity 2 with a failing step. -/
theorem c10_structural_invariant_witness :
    (0 < 2 ∧ BufferInv testState) ∧
      (BufferInv init ∧ BufferInv (reset testState 0 0 0 0 0 0) ∧
        BufferInv (step IvpResult.failure testState).1) := by
  have h1 : (0 : ℕ) < 2 := by norm_num
  have h2 : BufferInv testState :=
    ⟨by norm_num [testState], by norm_num [testState], fun _ => rfl⟩
  exact ⟨⟨h1, h2⟩,
    c10_structural_invariant h1 testState 0 0 0 0 0 0 IvpResult.failure h2⟩

end Rotators
